import Mathlib

/-!
Verification of the task-store subsystem of the a2a-demo repository
(`TaskStore`, `InMemoryTaskStore`, `FileStore` from the store source file).

The embedding works at two levels:

* a pure value model, where JavaScript objects that have been produced by
  `JSON.parse` / consumed by `JSON.stringify` are represented by the `Json`
  inductive, and the file system is an explicit association-list state
  (`FS`) threaded through `FileStore.save` / `FileStore.load`;
* a heap model (`Heap`, `HNode`, `HVal`) with explicit addresses, used for
  the aliasing / defensive-copy claims about `InMemoryTaskStore`, where the
  JavaScript spread operators `{...obj}` and `[...arr]` are shallow copies.
-/

set_option autoImplicit false

namespace A2ADemo

/-- JSON values, the image of `JSON.parse`.  Numbers are modelled as `Int`
(no claim involves fractional numbers). -/
inductive Json where
  | null
  | bool (b : Bool)
  | num (n : Int)
  | str (s : String)
  | arr (elems : List Json)
  | obj (fields : List (String × Json))

/-- Pointwise boolean comparison of two lists. -/
def listAll2 {α : Type} (f : α → α → Bool) : List α → List α → Bool
  | [], [] => true
  | x :: xs, y :: ys => f x y && listAll2 f xs ys
  | _, _ => false

/-- Fuel-bounded structural equality test on `Json` (fuel-recursion keeps it
kernel-reducible; with enough fuel it decides equality, see
`jsonBeq_refl_ne`). -/
def jsonBeq : Nat → Json → Json → Bool
  | 0, _, _ => false
  | fuel + 1, a, b =>
    match a, b with
    | .null, .null => true
    | .bool x, .bool y => x == y
    | .num x, .num y => x == y
    | .str x, .str y => x == y
    | .arr xs, .arr ys => listAll2 (jsonBeq fuel) xs ys
    | .obj xs, .obj ys =>
        listAll2 (fun p q => p.1 == q.1 && jsonBeq fuel p.2 q.2) xs ys
    | _, _ => false

/-- JavaScript falsiness of a JSON value (`!x`): `null`, `false`, `0` and
`""` are falsy, every array and object is truthy. -/
def jsFalsy : Json → Bool
  | .null => true
  | .bool b => !b
  | .num n => n == 0
  | .str s => s == ""
  | .arr _ => false
  | .obj _ => false

/-- Property read `x.k` on a JSON value: only objects have named fields
(`undefined`, i.e. `none`, otherwise).  Reading a property of `null` throws
in JavaScript; every such read in the code under study happens inside a
`try` block whose handler produces the same result as `undefined` does, so
`none` is an outcome-faithful model there. -/
def getField : Json → String → Option Json
  | .obj fields, k => fields.lookup k
  | _, _ => none

/-- Truthiness of a possibly-`undefined` JavaScript value. -/
def jsTruthy : Option Json → Bool
  | none => false
  | some j => !jsFalsy j

/-- `typeof x === 'object' && x !== null` — true for objects and arrays. -/
def isJsObject : Json → Bool
  | .obj _ => true
  | .arr _ => true
  | _ => false

/-- Does the second char list start with the first? -/
def charsStartWith : List Char → List Char → Bool
  | [], _ => true
  | _ :: _, [] => false
  | a :: as, b :: bs => a == b && charsStartWith as bs

/-- Does `sub` occur as a contiguous subsequence of `s`? -/
def charsContain (sub : List Char) : List Char → Bool
  | [] => sub.isEmpty
  | c :: rest => charsStartWith sub (c :: rest) || charsContain sub rest

/-- `String.prototype.includes(sub)`: substring occurrence test. -/
def jsIncludes (s sub : String) : Bool :=
  charsContain sub.toList s.toList

/-- Node's `path.basename` (posix): strip trailing slashes, then keep the
part after the last remaining slash. -/
def posixBasename (p : String) : String :=
  let trimmed := ((p.toList.reverse.dropWhile (· == '/')).reverse)
  String.mk ((trimmed.reverse.takeWhile (· != '/')).reverse)

/-- `path.join` for a directory and a simple file name. -/
def pathJoin (dir name : String) : String :=
  dir ++ "/" ++ name

/-! ### The persisted data model

`schema.Task` / `schema.Message` live in a schema module that only the store
imports.  Modelled from the spec: a Message is a role (`user` | `agent`)
plus an ordered list of typed content parts; a Task has an opaque string id,
a status (state from the lifecycle enum, optional current message,
timestamp) and an optional list of named artifacts. -/

/-- Modelled from the spec: message sender role, `user` or `agent`. -/
inductive Role where
  | user
  | agent
  deriving DecidableEq

def Role.toStr : Role → String
  | .user => "user"
  | .agent => "agent"

/-- Modelled from the spec: a typed content part — text or other payload. -/
inductive Part where
  | text (s : String)
  | other (payload : String)
  deriving DecidableEq

/-- Modelled from the spec: a message is a role plus ordered content parts. -/
structure Message where
  role : Role
  parts : List Part
  deriving DecidableEq

/-- Modelled from the spec: lifecycle states of a task. -/
inductive TaskState where
  | submitted
  | working
  | inputRequired
  | completed
  | failed
  | canceled
  deriving DecidableEq

def TaskState.toStr : TaskState → String
  | .submitted => "submitted"
  | .working => "working"
  | .inputRequired => "input-required"
  | .completed => "completed"
  | .failed => "failed"
  | .canceled => "canceled"

/-- Modelled from the spec: task status — state, optional current message,
last-update timestamp. -/
structure TaskStatus where
  state : TaskState
  message : Option Message
  timestamp : String
  deriving DecidableEq

/-- Modelled from the spec: a named output payload with a completion flag. -/
structure Artifact where
  name : String
  content : String
  lastChunk : Bool
  deriving DecidableEq

/-- Modelled from the spec: a task — opaque id, status, optional artifacts. -/
structure Task where
  id : String
  status : TaskStatus
  artifacts : Option (List Artifact)
  deriving DecidableEq

/-- `TaskAndHistory`, the atomic persistence unit of the store. -/
structure TaskAndHistory where
  task : Task
  history : List Message
  deriving DecidableEq

/-! ### JSON encodings

`FileStore` persists values with `JSON.stringify` and reads them back with
`JSON.parse` (no decoding/validation of the task file).  These encoders give
the JSON image of the model values; `JSON.stringify` omits fields holding
`undefined`, hence the optional fields contribute no key when `none`. -/

def encodePart : Part → Json
  | .text s => .obj [("type", .str "text"), ("text", .str s)]
  | .other payload => .obj [("type", .str "other"), ("data", .str payload)]

def encodeMessage (m : Message) : Json :=
  .obj [("role", .str m.role.toStr), ("parts", .arr (m.parts.map encodePart))]

def encodeArtifact (a : Artifact) : Json :=
  .obj [("name", .str a.name), ("content", .str a.content),
        ("lastChunk", .bool a.lastChunk)]

def encodeStatus (st : TaskStatus) : Json :=
  .obj ([("state", .str st.state.toStr)] ++
    (match st.message with
     | none => []
     | some m => [("message", encodeMessage m)]) ++
    [("timestamp", .str st.timestamp)])

def encodeTask (t : Task) : Json :=
  .obj ([("id", .str t.id), ("status", encodeStatus t.status)] ++
    (match t.artifacts with
     | none => []
     | some arts => [("artifacts", .arr (arts.map encodeArtifact))]))

/-- JSON content of a history file: `{"messageHistory": [...]}`. -/
def encodeHistoryFile (history : List Message) : Json :=
  .obj [("messageHistory", .arr (history.map encodeMessage))]

/-! ### InMemoryTaskStore (value level)

The map-backed store.  `Map.set` / `Map.get` are modelled by a
first-match association list, where `set` prepends (shadowing any older
binding, exactly `Map.set`'s observable behaviour).  The `{...task}` /
`[...history]` copies are value-identities at this level; the heap model
below accounts for their shallowness. -/

abbrev MemStore : Type := List (String × TaskAndHistory)

namespace InMemoryTaskStore

/-- `save`: `store.set(data.task.id, {task: {...data.task}, history: [...data.history]})`. -/
def save (store : MemStore) (data : TaskAndHistory) : MemStore :=
  (data.task.id, ⟨data.task, data.history⟩) :: store

/-- `load`: `store.get(taskId)`, copied, or `null`. -/
def load (store : MemStore) (taskId : String) : Option TaskAndHistory :=
  List.lookup taskId store

end InMemoryTaskStore

/-! ### FileStore

The file system is explicit state: a path-keyed association list of file
contents (first match wins, writing prepends — an overwrite), the set of
directories created, and a journal of every file-system access performed
(used to express "before any filesystem access").  A file either holds a
JSON document or unparseable bytes (`invalid`), on which `JSON.parse`
throws. -/

/-- One file-system access. -/
inductive FsOp where
  | read (path : String)
  | write (path : String)
  | mkdir (dir : String)
  deriving DecidableEq

/-- Contents of one file: a JSON document, or bytes `JSON.parse` rejects. -/
inductive FileData where
  | json (j : Json)
  | invalid

/-- File-system state. -/
structure FS where
  files : List (String × FileData)
  dirs : List String
  log : List FsOp

/-- Errors of the store: `A2AError.invalidParams` (invalid identifier) and
`A2AError.internalError` (storage failure wrapping the underlying cause). -/
inductive A2AErr where
  | invalidParams
  | internalError
  deriving DecidableEq

namespace FileStore

/-- `getTaskFilePath`: sanitize with `path.basename`, no validation. -/
def getTaskFilePath (baseDir taskId : String) : String :=
  pathJoin baseDir (posixBasename taskId ++ ".json")

/-- `getHistoryFilePath`: reject the id (throwing `invalidParams`) when
sanitization changes it or it contains `".."`. -/
def getHistoryFilePath (baseDir taskId : String) : Except A2AErr String :=
  if posixBasename taskId != taskId || jsIncludes taskId ".." then
    .error .invalidParams
  else
    .ok (pathJoin baseDir (posixBasename taskId ++ ".history.json"))

/-- `ensureDirectoryExists`: `fs.mkdir(baseDir, {recursive: true})`,
idempotent on the directory set; the access is journaled. -/
def ensureDirectoryExists (baseDir : String) (fs : FS) : FS :=
  { fs with
    dirs := if fs.dirs.contains baseDir then fs.dirs else baseDir :: fs.dirs
    log := .mkdir baseDir :: fs.log }

/-- `readJsonFile`: `ENOENT` (no such file) yields `null`; unparseable or
unreadable contents throw `internalError`; otherwise the parsed document. -/
def readJsonFile (fs : FS) (filePath : String) :
    Except A2AErr (Option Json) × FS :=
  let fs' : FS := { fs with log := .read filePath :: fs.log }
  match List.lookup filePath fs.files with
  | none => (.ok none, fs')
  | some (.json j) => (.ok (some j), fs')
  | some .invalid => (.error .internalError, fs')

/-- `writeJsonFile`: ensure the directory, then whole-file overwrite with
the serialized document. -/
def writeJsonFile (baseDir : String) (fs : FS) (filePath : String)
    (data : Json) : FS :=
  let fs1 := ensureDirectoryExists baseDir fs
  { fs1 with
    files := (filePath, .json data) :: fs1.files
    log := .write filePath :: fs1.log }

/-- `isHistoryFileContent` type guard: an object (or array) value whose
`messageHistory` field is an array of objects with truthy `role` and
`parts`.  (A `null` array element makes the JavaScript guard throw; the
sole caller runs it inside a `try` whose handler produces the same empty
history as a `false` answer, so `false` is an outcome-faithful model.) -/
def isHistoryFileContent (content : Json) : Bool :=
  isJsObject content &&
    match getField content "messageHistory" with
    | some (.arr msgs) =>
        msgs.all fun m =>
          isJsObject m && jsTruthy (getField m "role") &&
            jsTruthy (getField m "parts")
    | _ => false

/-- The `messageHistory` field of a validated history document. -/
def getMessageHistory (content : Json) : List Json :=
  match getField content "messageHistory" with
  | some (.arr msgs) => msgs
  | _ => []

/-- `FileStore.load`.  Computes both file paths first (`getHistoryFilePath`
may throw), reads the task file — absent or falsy parse means not found
(`none`), a read failure propagates — then reads the history file inside a
`try`: a throw or a malformed document degrades to the empty history. -/
def load (baseDir taskId : String) (fs : FS) :
    Except A2AErr (Option (Json × List Json)) × FS :=
  let taskFilePath := getTaskFilePath baseDir taskId
  match getHistoryFilePath baseDir taskId with
  | .error e => (.error e, fs)
  | .ok historyFilePath =>
    match readJsonFile fs taskFilePath with
    | (.error e, fs1) => (.error e, fs1)
    | (.ok none, fs1) => (.ok none, fs1)
    | (.ok (some task), fs1) =>
      if jsFalsy task then (.ok none, fs1)
      else
        match readJsonFile fs1 historyFilePath with
        | (.error _, fs2) => (.ok (some (task, [])), fs2)
        | (.ok none, fs2) => (.ok (some (task, [])), fs2)
        | (.ok (some historyContent), fs2) =>
          if isHistoryFileContent historyContent then
            (.ok (some (task, getMessageHistory historyContent)), fs2)
          else
            (.ok (some (task, [])), fs2)

/-- `FileStore.save`.  Computes both file paths (`getHistoryFilePath` may
throw, before any filesystem access), ensures the directory, then writes
the two files.  The code issues the two writes with `Promise.all`; they
touch distinct paths, so the sequential model reaches the same final
state. -/
def save (baseDir : String) (data : TaskAndHistory) (fs : FS) :
    Except A2AErr Unit × FS :=
  let taskFilePath := getTaskFilePath baseDir data.task.id
  match getHistoryFilePath baseDir data.task.id with
  | .error e => (.error e, fs)
  | .ok historyFilePath =>
    let fs1 := ensureDirectoryExists baseDir fs
    let fs2 := writeJsonFile baseDir fs1 taskFilePath (encodeTask data.task)
    let fs3 := writeJsonFile baseDir fs2 historyFilePath
      (encodeHistoryFile data.history)
    (.ok (), fs3)

/-- The id-validity condition checked by `getHistoryFilePath`, in the
polarity "the id is accepted". -/
def idAccepted (taskId : String) : Prop :=
  (posixBasename taskId != taskId || jsIncludes taskId "..") = false

/-- The id-validity condition in the polarity "the id is rejected". -/
def idRejected (taskId : String) : Prop :=
  (posixBasename taskId != taskId || jsIncludes taskId "..") = true

/-- What the history half of a successful `load` yields, as a function of
the file found at the history path: a validated document contributes its
`messageHistory`, everything else — absence, unreadable bytes, or a
malformed document — degrades to the empty history. -/
def historyReadResult (fs : FS) (historyFilePath : String) : List Json :=
  match List.lookup historyFilePath fs.files with
  | some (.json hc) =>
    if isHistoryFileContent hc then getMessageHistory hc else []
  | _ => []

end FileStore

/-! ### Heap model for aliasing

The value-level `InMemoryTaskStore` above cannot express JavaScript object
identity, so the defensive-copy claim is settled on an explicit heap:
objects and arrays are numbered cells, field/element values are either
primitives or addresses, and the spread copies `{...obj}` / `[...arr]`
allocate a fresh cell holding the *same* field/element values — a shallow
copy.  `Heap.set` mutates a cell in place; `deepVal` is the fuel-bounded
deep reading of a value, i.e. what a caller that walks the whole structure
observes. -/

/-- A JavaScript runtime value: a primitive or a reference to a cell. -/
inductive HVal where
  | str (s : String)
  | addr (a : Nat)
  deriving DecidableEq

/-- A heap cell: a plain object or an array. -/
inductive HNode where
  | obj (fields : List (String × HVal))
  | arr (elems : List HVal)
  deriving DecidableEq

/-- Heap memory: first-match cell list (newer bindings shadow older ones). -/
abbrev HMem : Type := List (Nat × HNode)

def HMem.get (m : HMem) (a : Nat) : Option HNode :=
  List.lookup a m

/-- A heap: the next fresh address plus the memory. -/
structure Heap where
  next : Nat
  mem : HMem

def Heap.get (h : Heap) (a : Nat) : Option HNode :=
  h.mem.get a

/-- In-place mutation of cell `a`. -/
def Heap.set (h : Heap) (a : Nat) (n : HNode) : Heap :=
  { h with mem := (a, n) :: h.mem }

/-- Allocation of a fresh cell. -/
def Heap.alloc (h : Heap) (n : HNode) : Nat × Heap :=
  (h.next, ⟨h.next + 1, (h.next, n) :: h.mem⟩)

/-- The addresses held directly by a value. -/
def HVal.addrsIn : HVal → List Nat
  | .str _ => []
  | .addr a => [a]

/-- The addresses held directly by a cell's fields/elements. -/
def HNode.valAddrs : HNode → List Nat
  | .obj fields => fields.flatMap fun kv => kv.2.addrsIn
  | .arr elems => elems.flatMap HVal.addrsIn

/-- Every cell address and every address stored in a cell is below `B`. -/
def memBounded (m : HMem) (B : Nat) : Bool :=
  m.all fun p => decide (p.1 < B) && p.2.valAddrs.all fun x => decide (x < B)

/-- Fuel-bounded deep reading of a value: the JSON document a caller sees
when it walks the whole structure.  (`none` on dangling references or fuel
exhaustion.) -/
def deepVal (m : HMem) : Nat → HVal → Option Json
  | _, .str s => some (.str s)
  | 0, .addr _ => none
  | fuel + 1, .addr a =>
    match m.get a with
    | none => none
    | some (.obj fields) =>
        (fields.mapM fun kv => (deepVal m fuel kv.2).map fun j => (kv.1, j)).map .obj
    | some (.arr elems) =>
        (elems.mapM (deepVal m fuel)).map .arr

/-- The addresses `deepVal` dereferences (same traversal). -/
def addrsOf (m : HMem) : Nat → HVal → List Nat
  | _, .str _ => []
  | 0, .addr a => [a]
  | fuel + 1, .addr a =>
    a :: match m.get a with
    | none => []
    | some (.obj fields) => fields.flatMap fun kv => addrsOf m fuel kv.2
    | some (.arr elems) => elems.flatMap (addrsOf m fuel)

namespace InMemoryTaskStore

/-- Heap-level store state: task id to the address of the stored record. -/
abbrev MemStoreH : Type := List (String × Nat)

/-- Heap-level `save`: reads `data.task` and `data.history`, performs the
shallow copies `{...data.task}` and `[...data.history]`, allocates the
record `{task, history}` and binds it in the map.  `none` when the heap
does not hold the expected shapes (a well-typed caller never triggers
this). -/
def saveM (store : MemStoreH) (h : Heap) (taskAddr histAddr : Nat) :
    Option (MemStoreH × Heap) :=
  match h.get taskAddr, h.get histAddr with
  | some (.obj tfields), some (.arr helems) =>
    match List.lookup "id" tfields with
    | some (.str id) =>
      let p1 := h.alloc (.obj tfields)
      let p2 := p1.2.alloc (.arr helems)
      let p3 := p2.2.alloc (.obj [("task", .addr p1.1), ("history", .addr p2.1)])
      some ((id, p3.1) :: store, p3.2)
    | _ => none
  | _, _ => none

/-- Heap-level `load`: looks the id up, shallow-copies the stored task
object and history array, and returns a fresh `{task, history}` record
(or `none` for a miss, the inner option). -/
def loadM (store : MemStoreH) (h : Heap) (taskId : String) :
    Option (Option Nat × Heap) :=
  match List.lookup taskId store with
  | none => some (none, h)
  | some entryAddr =>
    match h.get entryAddr with
    | some (.obj efields) =>
      match List.lookup "task" efields, List.lookup "history" efields with
      | some (.addr tA), some (.addr hA) =>
        match h.get tA, h.get hA with
        | some (.obj tfields), some (.arr helems) =>
          let p1 := h.alloc (.obj tfields)
          let p2 := p1.2.alloc (.arr helems)
          let p3 := p2.2.alloc
            (.obj [("task", .addr p1.1), ("history", .addr p2.1)])
          some (some p3.1, p3.2)
        | _, _ => none
      | _, _ => none
    | _ => none

/-- What a later `load` lets a caller observe: the deep value of the
returned record (`some none` for a miss, outer `none` for an ill-shaped
heap). -/
def deepLoad (store : MemStoreH) (h : Heap) (taskId : String) (fuel : Nat) :
    Option (Option (Option Json)) :=
  match loadM store h taskId with
  | none => none
  | some (none, _) => some none
  | some (some r, h') => some (some (deepVal h'.mem fuel (.addr r)))

end InMemoryTaskStore

/-! ### Concrete instances used by counterexamples and witnesses -/

def exStatus : TaskStatus := ⟨.working, none, "2024-01-01T00:00:00Z"⟩

def exTask : Task := ⟨"t1", exStatus, none⟩

def exMsg : Message := ⟨.user, [.text "hello"]⟩

def exRecord : TaskAndHistory := ⟨exTask, [exMsg]⟩

def exFs0 : FS := ⟨[], [], []⟩

def exTaskB : Task := ⟨"b", exStatus, none⟩

/-- A task whose id collides with the history file name of task `"b"`. -/
def exTaskX : Task := ⟨"b.history", exStatus, none⟩

def exFsB : FS := (FileStore.save ".a2a-tasks" ⟨exTaskB, [exMsg]⟩ exFs0).2

def exFsBX : FS := (FileStore.save ".a2a-tasks" ⟨exTaskX, []⟩ exFsB).2

/-- A file system whose metadata file for `"t1"` holds unparseable bytes. -/
def exFsBadMeta : FS := ⟨[(".a2a-tasks/t1.json", .invalid)], [], []⟩

/-- A file system holding only an orphaned history file for `"t1"`. -/
def exFsOrphan : FS :=
  ⟨[(".a2a-tasks/t1.history.json", .json (encodeHistoryFile [exMsg]))], [], []⟩

/-- Initial heap for the aliasing scenario: a parts array (cell 0), a
message referencing it (cell 1), a task object (cell 2) and a history array
referencing the message (cell 3). -/
def exHeap0 : Heap :=
  ⟨4, [(0, .arr [.str "hi"]),
       (1, .obj [("role", .str "agent"), ("parts", .addr 0)]),
       (2, .obj [("id", .str "t1"), ("status", .str "working")]),
       (3, .arr [.addr 1])]⟩

def exSaved : InMemoryTaskStore.MemStoreH × Heap :=
  (InMemoryTaskStore.saveM [] exHeap0 2 3).getD ([], exHeap0)

def exStore : InMemoryTaskStore.MemStoreH := exSaved.1

def exHeap1 : Heap := exSaved.2

def exLoaded : Option Nat × Heap :=
  (InMemoryTaskStore.loadM exStore exHeap1 "t1").getD (none, exHeap1)

def exHeap2 : Heap := exLoaded.2

/-- `exHeap2` after mutating the message's parts array — a nested part of
the record the first `load` returned — in place. -/
def exHeap2m : Heap := exHeap2.set 0 (.arr [.str "evil"])

def exJhi : Json :=
  .obj [("task", .obj [("id", .str "t1"), ("status", .str "working")]),
        ("history", .arr [.obj [("role", .str "agent"),
          ("parts", .arr [.str "hi"])]])]

def exJevil : Json :=
  .obj [("task", .obj [("id", .str "t1"), ("status", .str "working")]),
        ("history", .arr [.obj [("role", .str "agent"),
          ("parts", .arr [.str "evil"])]])]

/-! ### Heap lemmas -/

/-- If `a` compares equal to itself at some fuel but different from `b` at
the same fuel, then `a ≠ b`. -/
theorem jsonBeq_refl_ne {fuel : Nat} {a b : Json}
    (ha : jsonBeq fuel a a = true) (hab : jsonBeq fuel a b = false) :
    a ≠ b := by
  intro h
  rw [← h] at hab
  rw [ha] at hab
  exact Bool.noConfusion hab

theorem lookup_mem {α β : Type} [BEq α] [LawfulBEq α]
    {l : List (α × β)} {a : α} {b : β} (h : List.lookup a l = some b) :
    (a, b) ∈ l := by
  induction l with
  | nil => simp at h
  | cons p t ih =>
    obtain ⟨k, v⟩ := p
    rw [List.lookup_cons] at h
    cases hak : a == k with
    | true =>
      rw [hak] at h
      obtain rfl : v = b := by simpa using h
      obtain rfl : a = k := eq_of_beq hak
      exact List.mem_cons_self _ _
    | false =>
      rw [hak] at h
      exact List.mem_cons_of_mem _ (ih h)

theorem HMem.get_cons (m : HMem) (a x : Nat) (n : HNode) :
    HMem.get ((a, n) :: m) x = if x = a then some n else m.get x := by
  by_cases hxa : x = a
  · simp [HMem.get, List.lookup_cons, hxa]
  · have hb : (x == a) = false := beq_eq_false_iff_ne.mpr hxa
    simp [HMem.get, List.lookup_cons, hb, hxa]

theorem HMem.get_prepend {pre m : HMem} {B x : Nat}
    (hpre : ∀ p ∈ pre, B ≤ p.1) (hx : x < B) :
    HMem.get (pre ++ m) x = m.get x := by
  induction pre with
  | nil => rfl
  | cons p t ih =>
    obtain ⟨k, v⟩ := p
    have hk : B ≤ k := hpre (k, v) (List.mem_cons_self _ _)
    have hxk : x ≠ k := by omega
    rw [List.cons_append, HMem.get_cons, if_neg hxk]
    exact ih fun q hq => hpre q (List.mem_cons_of_mem _ hq)

theorem mapM_option_congr {α β : Type} {f g : α → Option β} :
    ∀ {l : List α}, (∀ a ∈ l, f a = g a) → l.mapM f = l.mapM g := by
  intro l
  induction l with
  | nil => intro _; rfl
  | cons x t ih =>
    intro h
    rw [List.mapM_cons, List.mapM_cons, h x (List.mem_cons_self _ _),
      ih fun a ha => h a (List.mem_cons_of_mem _ ha)]

/-- If the memory is bounded by `B`, every address stored inside any
resident cell is below `B`. -/
theorem memBounded_val_lt {m : HMem} {B x : Nat} {node : HNode}
    (hm : memBounded m B = true) (hx : m.get x = some node) :
    ∀ y ∈ node.valAddrs, y < B := by
  intro y hy
  have hmem : (x, node) ∈ m := lookup_mem hx
  have hall := (List.all_eq_true.mp hm) (x, node) hmem
  rw [Bool.and_eq_true] at hall
  have hval : node.valAddrs.all (fun z => decide (z < B)) = true := hall.2
  simpa using (List.all_eq_true.mp hval) y hy

/-- Reading through a memory extended in front by cells at addresses `≥ B`
gives the same deep value, provided every reachable address is `< B`. -/
theorem deepVal_prepend {pre m : HMem} {B : Nat}
    (hpre : ∀ p ∈ pre, B ≤ p.1) (hm : memBounded m B = true) :
    ∀ (fuel : Nat) (v : HVal), (∀ x ∈ v.addrsIn, x < B) →
      deepVal (pre ++ m) fuel v = deepVal m fuel v := by
  intro fuel
  induction fuel with
  | zero =>
    intro v _
    cases v <;> rfl
  | succ fuel ih =>
    intro v hv
    cases v with
    | str s => rfl
    | addr x =>
      have hx : x < B := hv x (by simp [HVal.addrsIn])
      have hget : HMem.get (pre ++ m) x = m.get x := HMem.get_prepend hpre hx
      show deepVal (pre ++ m) (fuel + 1) (.addr x) = deepVal m (fuel + 1) (.addr x)
      rw [deepVal, deepVal, hget]
      cases hnode : m.get x with
      | none => rfl
      | some node =>
        cases node with
        | obj fields =>
          have hbound := memBounded_val_lt hm hnode
          have hpt : ∀ kv ∈ fields,
              (fun kv : String × HVal =>
                (deepVal (pre ++ m) fuel kv.2).map fun j => (kv.1, j)) kv =
              (fun kv : String × HVal =>
                (deepVal m fuel kv.2).map fun j => (kv.1, j)) kv := by
            intro kv hkv
            have : ∀ y ∈ kv.2.addrsIn, y < B := by
              intro y hy
              exact hbound y (by
                simp only [HNode.valAddrs, List.mem_flatMap]
                exact ⟨kv, hkv, hy⟩)
            simp only [ih kv.2 this]
          simp only [mapM_option_congr hpt]
        | arr elems =>
          have hbound := memBounded_val_lt hm hnode
          have hpt : ∀ v' ∈ elems,
              deepVal (pre ++ m) fuel v' = deepVal m fuel v' := by
            intro v' hv'
            refine ih v' fun y hy => hbound y ?_
            simp only [HNode.valAddrs, List.mem_flatMap]
            exact ⟨v', hv', hy⟩
          simp only [mapM_option_congr hpt]

/-- Reading through a cell whose content only references addresses `< B`
gives the same deep value in any two extensions of `m` by cells `≥ B`. -/
theorem deepVal_node_bounded_eq {m : HMem} {B : Nat}
    (hm : memBounded m B = true)
    {preA preB : HMem}
    (hpA : ∀ p ∈ preA, B ≤ p.1) (hpB : ∀ p ∈ preB, B ≤ p.1)
    {x : Nat} {node : HNode}
    (hxA : HMem.get (preA ++ m) x = some node)
    (hxB : HMem.get (preB ++ m) x = some node)
    (hnode : ∀ y ∈ node.valAddrs, y < B) (f : Nat) :
    deepVal (preA ++ m) (f + 1) (.addr x) =
    deepVal (preB ++ m) (f + 1) (.addr x) := by
  rw [deepVal, deepVal, hxA, hxB]
  cases node with
  | obj fields =>
    have hpt : ∀ kv ∈ fields,
        (fun kv : String × HVal =>
          (deepVal (preA ++ m) f kv.2).map fun j => (kv.1, j)) kv =
        (fun kv : String × HVal =>
          (deepVal (preB ++ m) f kv.2).map fun j => (kv.1, j)) kv := by
      intro kv hkv
      have hb : ∀ y ∈ kv.2.addrsIn, y < B := by
        intro y hy
        refine hnode y ?_
        simp only [HNode.valAddrs, List.mem_flatMap]
        exact ⟨kv, hkv, hy⟩
      simp only [deepVal_prepend hpA hm f kv.2 hb, deepVal_prepend hpB hm f kv.2 hb]
    simp only [mapM_option_congr hpt]
  | arr elems =>
    have hpt : ∀ v' ∈ elems,
        deepVal (preA ++ m) f v' = deepVal (preB ++ m) f v' := by
      intro v' hv'
      have hb : ∀ y ∈ v'.addrsIn, y < B := by
        intro y hy
        refine hnode y ?_
        simp only [HNode.valAddrs, List.mem_flatMap]
        exact ⟨v', hv', hy⟩
      rw [deepVal_prepend hpA hm f v' hb, deepVal_prepend hpB hm f v' hb]
    simp only [mapM_option_congr hpt]

/-- The record allocated by a heap-level `load` — the cells at `N`, `N+1`,
`N+2` holding the shallow copies — deep-reads to the same document over any
two extensions of the base memory by cells at addresses `≥ B`: in
particular, over the mutated and unmutated heaps. -/
theorem deepVal_res_frame {m : HMem} {B N : Nat}
    (hm : memBounded m B = true) (hBN : B ≤ N)
    {preA preB : HMem}
    (hpA : ∀ p ∈ preA, B ≤ p.1) (hpB : ∀ p ∈ preB, B ≤ p.1)
    {tfields : List (String × HVal)}
    (htf : ∀ x ∈ (HNode.obj tfields).valAddrs, x < B)
    {helems : List HVal}
    (hhe : ∀ x ∈ (HNode.arr helems).valAddrs, x < B)
    (fuel : Nat) :
    deepVal ((N + 2, HNode.obj [("task", .addr N), ("history", .addr (N + 1))]) ::
      (N + 1, HNode.arr helems) :: (N, HNode.obj tfields) :: (preA ++ m))
      fuel (.addr (N + 2)) =
    deepVal ((N + 2, HNode.obj [("task", .addr N), ("history", .addr (N + 1))]) ::
      (N + 1, HNode.arr helems) :: (N, HNode.obj tfields) :: (preB ++ m))
      fuel (.addr (N + 2)) := by
  have hne2 : N ≠ N + 2 := by omega
  have hne1 : N ≠ N + 1 := by omega
  have hne21 : N + 2 ≠ N + 1 := by omega
  have hne20 : N + 2 ≠ N := by omega
  have hne10 : N + 1 ≠ N := by omega
  -- view both memories as prefix ++ m
  have hreA : ∀ (pre : HMem),
      ((N + 2, HNode.obj [("task", HVal.addr N), ("history", HVal.addr (N + 1))]) ::
        (N + 1, HNode.arr helems) :: (N, HNode.obj tfields) :: (pre ++ m)) =
      (((N + 2, HNode.obj [("task", HVal.addr N), ("history", HVal.addr (N + 1))]) ::
        (N + 1, HNode.arr helems) :: (N, HNode.obj tfields) :: pre) ++ m) := by
    intro pre; simp
  have hfull : ∀ (pre : HMem), (∀ p ∈ pre, B ≤ p.1) →
      ∀ p ∈ ((N + 2, HNode.obj [("task", HVal.addr N), ("history", HVal.addr (N + 1))]) ::
        (N + 1, HNode.arr helems) :: (N, HNode.obj tfields) :: pre), B ≤ p.1 := by
    intro pre hpre p hp
    simp only [List.mem_cons] at hp
    rcases hp with rfl | rfl | rfl | h
    · show B ≤ N + 2
      omega
    · show B ≤ N + 1
      omega
    · show B ≤ N
      omega
    · exact hpre p h
  cases fuel with
  | zero => rfl
  | succ f =>
    have hgA : HMem.get
        ((N + 2, HNode.obj [("task", HVal.addr N), ("history", HVal.addr (N + 1))]) ::
          (N + 1, HNode.arr helems) :: (N, HNode.obj tfields) :: (preA ++ m)) (N + 2) =
        some (HNode.obj [("task", HVal.addr N), ("history", HVal.addr (N + 1))]) := by
      rw [HMem.get_cons, if_pos rfl]
    have hgB : HMem.get
        ((N + 2, HNode.obj [("task", HVal.addr N), ("history", HVal.addr (N + 1))]) ::
          (N + 1, HNode.arr helems) :: (N, HNode.obj tfields) :: (preB ++ m)) (N + 2) =
        some (HNode.obj [("task", HVal.addr N), ("history", HVal.addr (N + 1))]) := by
      rw [HMem.get_cons, if_pos rfl]
    rw [deepVal, deepVal, hgA, hgB]
    have htask : deepVal
        ((N + 2, HNode.obj [("task", HVal.addr N), ("history", HVal.addr (N + 1))]) ::
          (N + 1, HNode.arr helems) :: (N, HNode.obj tfields) :: (preA ++ m)) f (.addr N) =
        deepVal
        ((N + 2, HNode.obj [("task", HVal.addr N), ("history", HVal.addr (N + 1))]) ::
          (N + 1, HNode.arr helems) :: (N, HNode.obj tfields) :: (preB ++ m)) f (.addr N) := by
      cases f with
      | zero => rfl
      | succ f' =>
        rw [hreA preA, hreA preB]
        refine deepVal_node_bounded_eq hm (hfull preA hpA) (hfull preB hpB) ?_ ?_ htf f'
        · rw [← hreA preA, HMem.get_cons, if_neg hne2, HMem.get_cons, if_neg hne1,
            HMem.get_cons, if_pos rfl]
        · rw [← hreA preB, HMem.get_cons, if_neg hne2, HMem.get_cons, if_neg hne1,
            HMem.get_cons, if_pos rfl]
    have hhist : deepVal
        ((N + 2, HNode.obj [("task", HVal.addr N), ("history", HVal.addr (N + 1))]) ::
          (N + 1, HNode.arr helems) :: (N, HNode.obj tfields) :: (preA ++ m)) f (.addr (N + 1)) =
        deepVal
        ((N + 2, HNode.obj [("task", HVal.addr N), ("history", HVal.addr (N + 1))]) ::
          (N + 1, HNode.arr helems) :: (N, HNode.obj tfields) :: (preB ++ m)) f (.addr (N + 1)) := by
      cases f with
      | zero => rfl
      | succ f' =>
        rw [hreA preA, hreA preB]
        refine deepVal_node_bounded_eq hm (hfull preA hpA) (hfull preB hpB) ?_ ?_ hhe f'
        · rw [← hreA preA, HMem.get_cons, if_neg hne21.symm, HMem.get_cons, if_pos rfl]
        · rw [← hreA preB, HMem.get_cons, if_neg hne21.symm, HMem.get_cons, if_pos rfl]
    simp only [List.mapM_cons, List.mapM_nil, htask, hhist]

namespace InMemoryTaskStore

/-- Frame theorem: in a heap that extends a `B`-bounded base memory only by
cells at addresses `≥ B` (with `B ≤ next` and every store binding `< B`),
overwriting any cell at an address `≥ B` does not change what `load`
lets its caller observe. -/
theorem loadM_set_frame (s : MemStoreH) (H : Heap) (taskId : String)
    {pre m : HMem} {B : Nat}
    (hsplit : H.mem = pre ++ m)
    (hpre : ∀ p ∈ pre, B ≤ p.1)
    (hm : memBounded m B = true)
    (hs : ∀ p ∈ s, p.2 < B)
    (hBn : B ≤ H.next)
    {a : Nat} (ha : B ≤ a) (n : HNode) (fuel : Nat) :
    deepLoad s (H.set a n) taskId fuel = deepLoad s H taskId fuel := by
  have hpre' : ∀ p ∈ ((a, n) :: pre), B ≤ p.1 := by
    intro p hp
    simp only [List.mem_cons] at hp
    rcases hp with rfl | h
    · exact ha
    · exact hpre p h
  have hmemS : (H.set a n).mem = ((a, n) :: pre) ++ m := by
    simp [Heap.set, hsplit]
  cases hlk : List.lookup taskId s with
  | none => simp [deepLoad, loadM, hlk]
  | some eA =>
    have heA : eA < B := hs (taskId, eA) (lookup_mem hlk)
    have hgetH : ∀ x, x < B → H.get x = m.get x := by
      intro x hx
      rw [Heap.get, hsplit]
      exact HMem.get_prepend hpre hx
    have hgetS : ∀ x, x < B → (H.set a n).get x = m.get x := by
      intro x hx
      rw [Heap.get, hmemS]
      exact HMem.get_prepend hpre' hx
    cases hge : m.get eA with
    | none =>
      simp [deepLoad, loadM, hlk, hgetH eA heA, hgetS eA heA, hge]
    | some node =>
      cases node with
      | arr elems =>
        simp [deepLoad, loadM, hlk, hgetH eA heA, hgetS eA heA, hge]
      | obj efields =>
        cases hlt : List.lookup "task" efields with
        | none =>
          simp [deepLoad, loadM, hlk, hgetH eA heA, hgetS eA heA, hge, hlt]
        | some tv =>
          cases tv with
          | str s' =>
            simp [deepLoad, loadM, hlk, hgetH eA heA, hgetS eA heA, hge, hlt]
          | addr tA =>
            have htAB : tA < B := by
              refine memBounded_val_lt hm hge tA ?_
              simp only [HNode.valAddrs, List.mem_flatMap]
              exact ⟨("task", .addr tA), lookup_mem hlt, by simp [HVal.addrsIn]⟩
            cases hlh : List.lookup "history" efields with
            | none =>
              simp [deepLoad, loadM, hlk, hgetH eA heA, hgetS eA heA, hge, hlt, hlh]
            | some hv =>
              cases hv with
              | str s' =>
                simp [deepLoad, loadM, hlk, hgetH eA heA, hgetS eA heA, hge, hlt, hlh]
              | addr hA =>
                have hhAB : hA < B := by
                  refine memBounded_val_lt hm hge hA ?_
                  simp only [HNode.valAddrs, List.mem_flatMap]
                  exact ⟨("history", .addr hA), lookup_mem hlh, by simp [HVal.addrsIn]⟩
                cases hgt : m.get tA with
                | none =>
                  simp [deepLoad, loadM, hlk, hgetH eA heA, hgetS eA heA, hge, hlt, hlh,
                    hgetH tA htAB, hgetS tA htAB, hgt]
                | some tnode =>
                  cases tnode with
                  | arr telems =>
                    simp [deepLoad, loadM, hlk, hgetH eA heA, hgetS eA heA, hge, hlt, hlh,
                      hgetH tA htAB, hgetS tA htAB, hgt]
                  | obj tfields =>
                    cases hgh : m.get hA with
                    | none =>
                      simp [deepLoad, loadM, hlk, hgetH eA heA, hgetS eA heA, hge, hlt, hlh,
                        hgetH tA htAB, hgetS tA htAB, hgt, hgetH hA hhAB, hgetS hA hhAB, hgh]
                    | some hnode =>
                      cases hnode with
                      | obj hfields =>
                        simp [deepLoad, loadM, hlk, hgetH eA heA, hgetS eA heA, hge, hlt, hlh,
                          hgetH tA htAB, hgetS tA htAB, hgt, hgetH hA hhAB, hgetS hA hhAB, hgh]
                      | arr helems =>
                        have htf : ∀ x ∈ (HNode.obj tfields).valAddrs, x < B :=
                          memBounded_val_lt hm hgt
                        have hhe : ∀ x ∈ (HNode.arr helems).valAddrs, x < B :=
                          memBounded_val_lt hm hgh
                        simp only [deepLoad, loadM, hlk, hgetH eA heA, hgetS eA heA, hge, hlt,
                          hlh, hgetH tA htAB, hgetS tA htAB, hgt, hgetH hA hhAB,
                          hgetS hA hhAB, hgh]
                        simp only [Heap.alloc, Heap.set, hsplit]
                        exact congrArg (fun z => some (some z))
                          (deepVal_res_frame hm hBn hpre' hpre htf hhe fuel)

end InMemoryTaskStore

/-! ### FileStore lemmas -/

namespace FileStore

theorem getHistoryFilePath_valid {baseDir taskId : String}
    (h : idAccepted taskId) :
    getHistoryFilePath baseDir taskId =
      .ok (pathJoin baseDir (taskId ++ ".history.json")) := by
  have hb : posixBasename taskId = taskId :=
    bne_eq_false_iff_eq.mp (Bool.or_eq_false_iff.mp h).1
  unfold getHistoryFilePath
  rw [h, hb]
  rfl

theorem getTaskFilePath_valid {baseDir taskId : String}
    (h : idAccepted taskId) :
    getTaskFilePath baseDir taskId = pathJoin baseDir (taskId ++ ".json") := by
  have hb : posixBasename taskId = taskId :=
    bne_eq_false_iff_eq.mp (Bool.or_eq_false_iff.mp h).1
  unfold getTaskFilePath
  rw [hb]

/-- The task file and the history file of one id are distinct paths. -/
theorem taskPath_ne_historyPath (baseDir taskId : String) :
    pathJoin baseDir (taskId ++ ".json") ≠
    pathJoin baseDir (taskId ++ ".history.json") := by
  intro h
  have hlen := congrArg String.length h
  have h5 : (".json" : String).length = 5 := rfl
  have h13 : (".history.json" : String).length = 13 := rfl
  simp only [pathJoin, String.length_append, h5, h13] at hlen
  omega

/-- The file list after a valid-id `save`: the history file in front of the
task file in front of the previous files. -/
theorem save_files {baseDir : String} {data : TaskAndHistory} {fs : FS}
    (h : idAccepted data.task.id) :
    (save baseDir data fs).2.files =
      (pathJoin baseDir (data.task.id ++ ".history.json"),
        .json (encodeHistoryFile data.history)) ::
      (pathJoin baseDir (data.task.id ++ ".json"),
        .json (encodeTask data.task)) :: fs.files := by
  unfold save
  rw [getHistoryFilePath_valid h, getTaskFilePath_valid h]
  simp [writeJsonFile, ensureDirectoryExists]

/-- A valid-id `save` reports success. -/
theorem save_ok {baseDir : String} {data : TaskAndHistory} {fs : FS}
    (h : idAccepted data.task.id) :
    (save baseDir data fs).1 = .ok () := by
  unfold save
  rw [getHistoryFilePath_valid h]

/-- An encoded history file always passes the `isHistoryFileContent`
type guard: every encoded message is an object with a non-empty `role`
string and a `parts` array. -/
theorem isHistoryFileContent_encode (history : List Message) :
    isHistoryFileContent (encodeHistoryFile history) = true := by
  unfold isHistoryFileContent encodeHistoryFile
  simp only [getField, List.lookup, beq_self_eq_true, isJsObject, Bool.true_and]
  rw [List.all_eq_true]
  intro j hj
  rcases List.mem_map.mp hj with ⟨msg, _, rfl⟩
  cases hr : msg.role <;> simp [encodeMessage, isJsObject, getField,
    jsTruthy, jsFalsy, List.lookup, Role.toStr, hr]

/-- The encoded task document is truthy (it is a JSON object). -/
theorem encodeTask_not_falsy (t : Task) : jsFalsy (encodeTask t) = false := rfl

/-- `load` right after a valid-id `save` of the same id returns exactly the
saved record's JSON image: `JSON.parse` of what `JSON.stringify` wrote,
i.e. a deep-equal copy. -/
theorem load_after_save (baseDir : String) (fs : FS) (data : TaskAndHistory)
    (h : idAccepted data.task.id) :
    (load baseDir data.task.id (save baseDir data fs).2).1 =
      .ok (some (encodeTask data.task, data.history.map encodeMessage)) := by
  unfold load
  rw [getHistoryFilePath_valid h, getTaskFilePath_valid h]
  have hfiles := @save_files baseDir data fs h
  have hne := taskPath_ne_historyPath baseDir data.task.id
  have hbne : (pathJoin baseDir (data.task.id ++ ".json") ==
      pathJoin baseDir (data.task.id ++ ".history.json")) = false :=
    beq_eq_false_iff_ne.mpr hne
  simp only [readJsonFile, hfiles, List.lookup_cons, hbne, beq_self_eq_true]
  simp only [encodeTask_not_falsy, Bool.false_eq_true, if_false,
    isHistoryFileContent_encode, if_true]
  unfold getMessageHistory encodeHistoryFile
  simp [getField, List.lookup]

theorem getHistoryFilePath_invalid {baseDir taskId : String}
    (h : idRejected taskId) :
    getHistoryFilePath baseDir taskId = .error .invalidParams := by
  unfold getHistoryFilePath
  rw [h]
  rfl

/-- A rejected id makes `load` fail with `invalidParams` and leaves the
file system — files, directories and the access journal — untouched. -/
theorem load_rejected {baseDir taskId : String} {fs : FS}
    (h : idRejected taskId) :
    load baseDir taskId fs = (.error .invalidParams, fs) := by
  unfold load
  rw [getHistoryFilePath_invalid h]

/-- A rejected id makes `save` fail with `invalidParams` and leaves the
file system untouched. -/
theorem save_rejected {baseDir : String} {data : TaskAndHistory} {fs : FS}
    (h : idRejected data.task.id) :
    save baseDir data fs = (.error .invalidParams, fs) := by
  unfold save
  rw [getHistoryFilePath_invalid h]

/-- `load` with an accepted id and an absent metadata file answers
"not found" (`none`), whatever else is on disk. -/
theorem load_metadata_absent {baseDir taskId : String} {fs : FS}
    (h : idAccepted taskId)
    (habsent : List.lookup (getTaskFilePath baseDir taskId) fs.files = none) :
    (load baseDir taskId fs).1 = .ok none := by
  unfold load
  rw [getHistoryFilePath_valid h]
  simp only [readJsonFile, habsent]

/-- `load` with an accepted id and a parsed, truthy metadata document
succeeds, pairing the document with `historyReadResult`. -/
theorem load_metadata_present {baseDir taskId : String} {fs : FS} {j : Json}
    (h : idAccepted taskId)
    (htask : List.lookup (getTaskFilePath baseDir taskId) fs.files =
      some (.json j))
    (hj : jsFalsy j = false) :
    (load baseDir taskId fs).1 =
      .ok (some (j, historyReadResult fs
        (pathJoin baseDir (taskId ++ ".history.json")))) := by
  unfold load
  rw [getHistoryFilePath_valid h]
  simp only [readJsonFile, htask, hj, Bool.false_eq_true, if_false]
  unfold historyReadResult
  cases hh : List.lookup (pathJoin baseDir (taskId ++ ".history.json")) fs.files with
  | none => simp [hh]
  | some d =>
    cases d with
    | invalid => simp [hh]
    | json hc =>
      cases hc' : isHistoryFileContent hc <;> simp [hh, hc']

/-- With an accepted id, `load` never reports `invalidParams`. -/
theorem load_accepted_not_invalid {baseDir taskId : String} {fs : FS}
    (h : idAccepted taskId) :
    (load baseDir taskId fs).1 ≠ .error .invalidParams := by
  cases htask : List.lookup (getTaskFilePath baseDir taskId) fs.files with
  | none =>
    rw [load_metadata_absent h htask]
    exact fun hc => Except.noConfusion hc
  | some d =>
    cases d with
    | invalid =>
      unfold load
      rw [getHistoryFilePath_valid h]
      simp only [readJsonFile, htask]
      intro hc
      exact A2AErr.noConfusion (Except.error.inj hc)
    | json j =>
      cases hj : jsFalsy j with
      | true =>
        unfold load
        rw [getHistoryFilePath_valid h]
        simp only [readJsonFile, htask, hj, if_true]
        exact fun hc => Except.noConfusion hc
      | false =>
        rw [load_metadata_present h htask hj]
        exact fun hc => Except.noConfusion hc

end FileStore

namespace InMemoryTaskStore

/-- Value level: a `load` right after a `save` of the same id returns the
saved record. -/
theorem load_save_self (store : MemStore) (data : TaskAndHistory) :
    load (save store data) data.task.id = some data := by
  simp [load, save, List.lookup_cons]

/-- Value level: a `save` does not disturb any other id. -/
theorem load_save_other (store : MemStore) (data : TaskAndHistory)
    {y : String} (hne : y ≠ data.task.id) :
    load (save store data) y = load store y := by
  have hb : (y == data.task.id) = false := beq_eq_false_iff_ne.mpr hne
  simp [load, save, List.lookup_cons, hb]

/-- Inversion of a heap-level `load` hit: the returned record sits at the
address `next + 2` freshly allocated by the call, on top of the two shallow
copies at `next` and `next + 1`; the rest of the heap is untouched. -/
theorem loadM_found_inv {s : MemStoreH} {h : Heap} {taskId : String}
    {r : Nat} {h' : Heap}
    (hload : loadM s h taskId = some (some r, h')) :
    r = h.next + 2 ∧ h'.next = h.next + 3 ∧
    ∃ tfields helems,
      h'.mem = (h.next + 2,
          HNode.obj [("task", .addr h.next), ("history", .addr (h.next + 1))]) ::
        (h.next + 1, HNode.arr helems) :: (h.next, HNode.obj tfields) :: h.mem := by
  unfold loadM at hload
  cases hlk : List.lookup taskId s
  · rw [hlk] at hload
    simp at hload
  case some eA =>
    rw [hlk] at hload
    dsimp only at hload
    cases hge : h.get eA
    · rw [hge] at hload
      simp at hload
    case some node =>
      rw [hge] at hload
      cases node
      case arr elems => simp at hload
      case obj efields =>
        dsimp only at hload
        cases hlt : List.lookup "task" efields
        · rw [hlt] at hload
          simp at hload
        case some tv =>
          rw [hlt] at hload
          cases hlh : List.lookup "history" efields
          · rw [hlh] at hload
            cases tv <;> simp at hload
          case some hv =>
            rw [hlh] at hload
            cases tv
            case str s' => simp at hload
            case addr tA =>
              cases hv
              case str s' => simp at hload
              case addr hA =>
                dsimp only at hload
                cases hgt : h.get tA
                · rw [hgt] at hload
                  simp at hload
                case some tnode =>
                  rw [hgt] at hload
                  cases tnode
                  case arr telems => simp at hload
                  case obj tfields =>
                    cases hgh : h.get hA
                    · rw [hgh] at hload
                      simp at hload
                    case some hnode =>
                      rw [hgh] at hload
                      cases hnode
                      case obj hfields => simp at hload
                      case arr helems =>
                        simp only [Heap.alloc, Option.some.injEq,
                          Prod.mk.injEq] at hload
                        obtain ⟨hr, hh'⟩ := hload
                        refine ⟨?_, ?_, tfields, helems, ?_⟩
                        · omega
                        all_goals rw [← hh']

end InMemoryTaskStore

end A2ADemo


namespace A2ADemo

/-! ### Claim theorems -/

/-- C1: for every `TaskAndHistory` value `v` with a valid id, `load(v.task.id)`
after `save(v)` returns a value deep-equal to `v` on both stores: the
in-memory store returns the record itself, and the file store returns
exactly the JSON image of `v` — what `JSON.parse` of the files written by
`save` yields, which is JavaScript deep equality with `v`. -/
theorem roundtrip_save_load (st : MemStore) (baseDir : String) (fs : FS)
    (v : TaskAndHistory) (hvalid : FileStore.idAccepted v.task.id) :
    InMemoryTaskStore.load (InMemoryTaskStore.save st v) v.task.id = some v ∧
    (FileStore.load baseDir v.task.id (FileStore.save baseDir v fs).2).1 =
      .ok (some (encodeTask v.task, v.history.map encodeMessage)) :=
  ⟨InMemoryTaskStore.load_save_self st v,
   FileStore.load_after_save baseDir fs v hvalid⟩

/-- Witness for C1 at a concrete record with id `"t1"` on empty stores. -/
theorem roundtrip_save_load_witness :
    InMemoryTaskStore.load (InMemoryTaskStore.save [] exRecord) "t1" =
      some exRecord ∧
    (FileStore.load ".a2a-tasks" "t1"
      (FileStore.save ".a2a-tasks" exRecord exFs0).2).1 =
      .ok (some (encodeTask exTask, [encodeMessage exMsg])) :=
  roundtrip_save_load [] ".a2a-tasks" exFs0 exRecord (by rfl)

/-- C2: an id changed by sanitization, or containing the parent-directory
traversal sequence `".."`, makes both `FileStore.save` and `FileStore.load`
fail with the invalid-identifier error before any filesystem access: the
returned file-system state — files, directories, and the journal of reads,
writes and directory creations — is the input state unchanged. -/
theorem invalid_id_rejected (baseDir taskId : String) (fs : FS)
    (data : TaskAndHistory) (hid : data.task.id = taskId)
    (hbad : FileStore.idRejected taskId) :
    FileStore.save baseDir data fs = (.error .invalidParams, fs) ∧
    FileStore.load baseDir taskId fs = (.error .invalidParams, fs) :=
  ⟨FileStore.save_rejected (by rw [hid]; exact hbad),
   FileStore.load_rejected hbad⟩

/-- Witness for C2 at the spec's example id `"../escape"`. -/
theorem invalid_id_rejected_witness :
    FileStore.save ".a2a-tasks" ⟨⟨"../escape", exStatus, none⟩, []⟩ exFs0 =
      (.error .invalidParams, exFs0) ∧
    FileStore.load ".a2a-tasks" "../escape" exFs0 =
      (.error .invalidParams, exFs0) :=
  invalid_id_rejected ".a2a-tasks" "../escape" exFs0
    ⟨⟨"../escape", exStatus, none⟩, []⟩ rfl (by rfl)

/-- C5: with a valid id whose metadata file is absent, `FileStore.load`
answers "not found" for the whole record, whatever the rest of the file
system holds — in particular when an orphaned history file exists. -/
theorem load_absent_metadata_notfound (baseDir taskId : String) (fs : FS)
    (hvalid : FileStore.idAccepted taskId)
    (habsent : List.lookup (FileStore.getTaskFilePath baseDir taskId)
      fs.files = none) :
    (FileStore.load baseDir taskId fs).1 = .ok none :=
  FileStore.load_metadata_absent hvalid habsent

/-- Witness for C5: only an orphaned history file for `"t1"` exists. -/
theorem load_absent_metadata_notfound_witness :
    (FileStore.load ".a2a-tasks" "t1" exFsOrphan).1 = .ok none :=
  load_absent_metadata_notfound ".a2a-tasks" "t1" exFsOrphan (by rfl) (by rfl)

/-- C6: with a valid id, a metadata file parsing as a Task, and no history
file, `FileStore.load` succeeds with the task and an empty history. -/
theorem load_missing_history_empty (baseDir taskId : String) (fs : FS)
    (t : Task) (hvalid : FileStore.idAccepted taskId)
    (htask : List.lookup (FileStore.getTaskFilePath baseDir taskId)
      fs.files = some (.json (encodeTask t)))
    (hhist : List.lookup (pathJoin baseDir (taskId ++ ".history.json"))
      fs.files = none) :
    (FileStore.load baseDir taskId fs).1 = .ok (some (encodeTask t, [])) := by
  rw [FileStore.load_metadata_present hvalid htask
    (FileStore.encodeTask_not_falsy t)]
  unfold FileStore.historyReadResult
  rw [hhist]

/-- Witness for C6: metadata for `"t1"` present, no history file. -/
theorem load_missing_history_empty_witness :
    (FileStore.load ".a2a-tasks" "t1"
      ⟨[(".a2a-tasks/t1.json", .json (encodeTask exTask))], [], []⟩).1 =
      .ok (some (encodeTask exTask, [])) :=
  load_missing_history_empty ".a2a-tasks" "t1"
    ⟨[(".a2a-tasks/t1.json", .json (encodeTask exTask))], [], []⟩ exTask
    (by rfl) (by rfl) (by rfl)

/-- C7: with a valid id and a metadata file parsing as a Task, a damaged
history file never fails the load: whether the history file holds
unparseable bytes (its read throws) or a document rejected by the
`isHistoryFileContent` guard, `load` succeeds with an empty history. -/
theorem load_damaged_history_empty (baseDir taskId : String) (fs : FS)
    (t : Task) (d : FileData) (hvalid : FileStore.idAccepted taskId)
    (htask : List.lookup (FileStore.getTaskFilePath baseDir taskId)
      fs.files = some (.json (encodeTask t)))
    (hhist : List.lookup (pathJoin baseDir (taskId ++ ".history.json"))
      fs.files = some d)
    (hmal : ∀ j, d = FileData.json j →
      FileStore.isHistoryFileContent j = false) :
    (FileStore.load baseDir taskId fs).1 = .ok (some (encodeTask t, [])) := by
  rw [FileStore.load_metadata_present hvalid htask
    (FileStore.encodeTask_not_falsy t)]
  unfold FileStore.historyReadResult
  rw [hhist]
  cases d with
  | invalid => rfl
  | json j => simp [hmal j rfl]

/-- Witness for C7: the history file of `"t1"` holds the malformed document
`"oops"` (a string, rejected by the guard). -/
theorem load_damaged_history_empty_witness :
    (FileStore.load ".a2a-tasks" "t1"
      ⟨[(".a2a-tasks/t1.json", .json (encodeTask exTask)),
        (".a2a-tasks/t1.history.json", .json (.str "oops"))], [], []⟩).1 =
      .ok (some (encodeTask exTask, [])) :=
  load_damaged_history_empty ".a2a-tasks" "t1"
    ⟨[(".a2a-tasks/t1.json", .json (encodeTask exTask)),
      (".a2a-tasks/t1.history.json", .json (.str "oops"))], [], []⟩ exTask
    (.json (.str "oops")) (by rfl) (by rfl) (by rfl)
    (fun j hj => by cases hj; rfl)

/-- C9: `save` is a whole-record overwrite: saving `v1` then `v2` under the
same valid id and loading it returns exactly `v2`'s record — on the
in-memory store the record itself, on the file store its JSON image — with
nothing of `v1` surviving. -/
theorem save_overwrites_whole_record (st : MemStore) (baseDir : String)
    (fs : FS) (v1 v2 : TaskAndHistory) (_hid : v1.task.id = v2.task.id)
    (hvalid : FileStore.idAccepted v2.task.id) :
    InMemoryTaskStore.load
      (InMemoryTaskStore.save (InMemoryTaskStore.save st v1) v2)
      v2.task.id = some v2 ∧
    (FileStore.load baseDir v2.task.id
      (FileStore.save baseDir v2 (FileStore.save baseDir v1 fs).2).2).1 =
      .ok (some (encodeTask v2.task, v2.history.map encodeMessage)) :=
  ⟨InMemoryTaskStore.load_save_self _ v2,
   FileStore.load_after_save baseDir _ v2 hvalid⟩

/-- Witness for C9: `"t1"` first saved with a message and artifacts-less
task, then overwritten by a record with empty history. -/
theorem save_overwrites_whole_record_witness :
    InMemoryTaskStore.load
      (InMemoryTaskStore.save (InMemoryTaskStore.save [] exRecord)
        ⟨exTask, []⟩) "t1" = some ⟨exTask, []⟩ ∧
    (FileStore.load ".a2a-tasks" "t1"
      (FileStore.save ".a2a-tasks" ⟨exTask, []⟩
        (FileStore.save ".a2a-tasks" exRecord exFs0).2).2).1 =
      .ok (some (encodeTask exTask, [])) :=
  save_overwrites_whole_record [] ".a2a-tasks" exFs0 exRecord ⟨exTask, []⟩
    rfl (by rfl)

end A2ADemo

namespace A2ADemo

namespace FileStore

/-- `load` with an accepted id whose metadata file holds unparseable bytes
propagates the read failure as an internal (storage) error. -/
theorem load_metadata_invalid {baseDir taskId : String} {fs : FS}
    (h : idAccepted taskId)
    (hl : List.lookup (getTaskFilePath baseDir taskId) fs.files =
      some FileData.invalid) :
    (load baseDir taskId fs).1 = .error .internalError := by
  unfold load
  rw [getHistoryFilePath_valid h]
  simp only [readJsonFile, hl]

/-- `load` with an accepted id whose metadata file parses to a JavaScript
falsy document (such as `null`) answers "not found". -/
theorem load_metadata_falsy {baseDir taskId : String} {fs : FS} {j : Json}
    (h : idAccepted taskId)
    (hl : List.lookup (getTaskFilePath baseDir taskId) fs.files =
      some (FileData.json j))
    (hf : jsFalsy j = true) :
    (load baseDir taskId fs).1 = .ok none := by
  unfold load
  rw [getHistoryFilePath_valid h]
  simp only [readJsonFile, hl, hf, if_true]

end FileStore

/-- C8 counterexample: with the valid id `"t1"` and a metadata file holding
unparseable bytes, `load` raises the internal storage error instead of
returning "not found" — refuting the claim that a failed load returns
NotFound rather than raising. -/
theorem load_unreadable_metadata_raises :
    (FileStore.load ".a2a-tasks" "t1" exFsBadMeta).1 = .error .internalError ∧
    (FileStore.load ".a2a-tasks" "t1" exFsBadMeta).1 ≠ .ok none :=
  ⟨rfl, fun hco => Except.noConfusion hco⟩

/-- C8 amended: for a valid id, `load` answers "not found" exactly when the
metadata file is absent or parses to a JavaScript-falsy document; when the
metadata file exists but cannot be read or parsed, `load` instead raises
the internal storage error.  (A damaged history file never makes `load`
fail.) -/
theorem load_notfound_characterization (baseDir taskId : String) (fs : FS)
    (hvalid : FileStore.idAccepted taskId) :
    ((FileStore.load baseDir taskId fs).1 = .ok none ↔
      (List.lookup (FileStore.getTaskFilePath baseDir taskId) fs.files =
        none ∨
       ∃ j, List.lookup (FileStore.getTaskFilePath baseDir taskId) fs.files =
        some (.json j) ∧ jsFalsy j = true)) ∧
    ((FileStore.load baseDir taskId fs).1 = .error .internalError ↔
      List.lookup (FileStore.getTaskFilePath baseDir taskId) fs.files =
        some FileData.invalid) := by
  cases hl : List.lookup (FileStore.getTaskFilePath baseDir taskId) fs.files
  case none =>
    rw [FileStore.load_metadata_absent hvalid hl]
    simp [hl]
  case some d =>
    cases d
    case invalid =>
      rw [FileStore.load_metadata_invalid hvalid hl]
      simp [hl]
    case json j =>
      cases hf : jsFalsy j
      case true =>
        rw [FileStore.load_metadata_falsy hvalid hl hf]
        simp [hl, hf]
      case false =>
        rw [FileStore.load_metadata_present hvalid hl hf]
        simp [hl, hf]

/-- Witness for C8-amended at id `"t1"` over the empty file system. -/
theorem load_notfound_characterization_witness :
    ((FileStore.load ".a2a-tasks" "t1" exFs0).1 = .ok none ↔
      (List.lookup (FileStore.getTaskFilePath ".a2a-tasks" "t1")
        exFs0.files = none ∨
       ∃ j, List.lookup (FileStore.getTaskFilePath ".a2a-tasks" "t1")
        exFs0.files = some (.json j) ∧ jsFalsy j = true)) ∧
    ((FileStore.load ".a2a-tasks" "t1" exFs0).1 = .error .internalError ↔
      List.lookup (FileStore.getTaskFilePath ".a2a-tasks" "t1")
        exFs0.files = some FileData.invalid) :=
  load_notfound_characterization ".a2a-tasks" "t1" exFs0 (by rfl)

/-- C10: the rejection predicate of `FileStore.save` and `FileStore.load`
is exactly "`path.basename` changes the id, or the id contains the
substring `..`" — including ids such as `"a..b"` that sanitization leaves
unchanged — and a rejected call leaves the file system unchanged. -/
theorem rejection_predicate_exact (baseDir taskId : String) (fs : FS)
    (data : TaskAndHistory) (hid : data.task.id = taskId) :
    ((FileStore.save baseDir data fs).1 = .error .invalidParams ↔
      (posixBasename taskId != taskId || jsIncludes taskId "..") = true) ∧
    ((FileStore.load baseDir taskId fs).1 = .error .invalidParams ↔
      (posixBasename taskId != taskId || jsIncludes taskId "..") = true) ∧
    ((posixBasename taskId != taskId || jsIncludes taskId "..") = true →
      (FileStore.save baseDir data fs).2 = fs ∧
      (FileStore.load baseDir taskId fs).2 = fs) := by
  subst hid
  cases hc : (posixBasename data.task.id != data.task.id ||
      jsIncludes data.task.id "..")
  case true =>
    have hsave := @FileStore.save_rejected baseDir data fs hc
    have hload := @FileStore.load_rejected baseDir data.task.id fs hc
    rw [hsave, hload]
    simp
  case false =>
    have hsave := @FileStore.save_ok baseDir data fs hc
    have hload := @FileStore.load_accepted_not_invalid baseDir data.task.id fs hc
    rw [hsave]
    constructor
    · simp
    constructor
    · simp [hload]
    · intro hcontra
      exact absurd hcontra (by simp)

/-- Witness for C10 at the separator-free id `"a..b"`. -/
theorem rejection_predicate_exact_witness :
    ((FileStore.save ".a2a-tasks" ⟨⟨"a..b", exStatus, none⟩, []⟩ exFs0).1 =
        .error .invalidParams ↔
      (posixBasename "a..b" != "a..b" || jsIncludes "a..b" "..") = true) ∧
    ((FileStore.load ".a2a-tasks" "a..b" exFs0).1 = .error .invalidParams ↔
      (posixBasename "a..b" != "a..b" || jsIncludes "a..b" "..") = true) ∧
    ((posixBasename "a..b" != "a..b" || jsIncludes "a..b" "..") = true →
      (FileStore.save ".a2a-tasks" ⟨⟨"a..b", exStatus, none⟩, []⟩ exFs0).2 =
        exFs0 ∧
      (FileStore.load ".a2a-tasks" "a..b" exFs0).2 = exFs0) :=
  rejection_predicate_exact ".a2a-tasks" "a..b" exFs0
    ⟨⟨"a..b", exStatus, none⟩, []⟩ rfl

end A2ADemo

namespace A2ADemo

/-- C4 (evaluation at the failing input): distinct valid ids are *not*
independent in `FileStore`: the task file of id `"b.history"` is the very
file `"b.history.json"` that stores id `"b"`'s history, so saving a record
under `"b.history"` clobbers it.  Loading `"b"` returns its saved history
before that save and the empty history after it, while the in-memory store
keeps `"b"` intact under the same sequence of operations. -/
theorem filestore_distinct_id_interference :
    (FileStore.load ".a2a-tasks" "b" exFsB).1 =
      .ok (some (encodeTask exTaskB, [encodeMessage exMsg])) ∧
    (FileStore.load ".a2a-tasks" "b" exFsBX).1 =
      .ok (some (encodeTask exTaskB, [])) ∧
    ([encodeMessage exMsg] : List Json) ≠ [] ∧
    InMemoryTaskStore.load
      (InMemoryTaskStore.save (InMemoryTaskStore.save [] ⟨exTaskB, [exMsg]⟩)
        ⟨exTaskX, []⟩) "b" = some ⟨exTaskB, [exMsg]⟩ := by
  refine ⟨rfl, rfl, ?_, rfl⟩
  simp

/-- C3 counterexample: in the heap model of `InMemoryTaskStore`, after
saving a record for `"t1"` and loading it back (the returned record is the
fresh cell 9 of `exHeap2`), cell 0 — the parts array of the history's
message, reachable from the returned record — is mutated in place; a later
`load` of `"t1"` then observes `"evil"` where it previously observed
`"hi"`: the copies are shallow and nested parts are aliased, refuting the
deep-defensive-copy claim. -/
theorem inmemory_nested_alias_counterexample :
    InMemoryTaskStore.loadM exStore exHeap1 "t1" = some (some 9, exHeap2) ∧
    (0 : Nat) ∈ addrsOf exHeap2.mem 6 (.addr 9) ∧
    InMemoryTaskStore.deepLoad exStore exHeap2 "t1" 6 =
      some (some (some exJhi)) ∧
    InMemoryTaskStore.deepLoad exStore exHeap2m "t1" 6 =
      some (some (some exJevil)) ∧
    exJhi ≠ exJevil :=
  ⟨rfl, by decide, rfl, rfl, @jsonBeq_refl_ne 8 exJhi exJevil rfl rfl⟩

/-- C3 amended: for `InMemoryTaskStore` the defensive copies are shallow,
one level deep.  The record returned by `load` and the task-object and
history-array copies inside it are fresh cells at addresses `≥ next`, and
overwriting any cell at an address `≥ next` (in particular those top-level
copies) never changes what a later `load` of the same id returns; nested
components, however, remain shared with the store, and mutating them
through a loaded value does change later loads (see the counterexample).
`FileStore` is unaffected by this correction: it persists serialized
snapshots and loads parse fresh structures. -/
theorem inmemory_shallow_copy_isolation
    (s : InMemoryTaskStore.MemStoreH) (h : Heap) (taskId : String)
    (hmem : memBounded h.mem h.next = true)
    (hs : ∀ p ∈ s, p.2 < h.next)
    (r : Nat) (h' : Heap)
    (hload : InMemoryTaskStore.loadM s h taskId = some (some r, h'))
    (a : Nat) (ha : h.next ≤ a) (n : HNode) (fuel : Nat) :
    h.next ≤ r ∧
    InMemoryTaskStore.deepLoad s (h'.set a n) taskId fuel =
      InMemoryTaskStore.deepLoad s h' taskId fuel := by
  obtain ⟨hr, hnext, tfields, helems, hmem'⟩ :=
    InMemoryTaskStore.loadM_found_inv hload
  have hsplit : h'.mem =
      ((h.next + 2,
          HNode.obj [("task", .addr h.next), ("history", .addr (h.next + 1))]) ::
        (h.next + 1, HNode.arr helems) :: [(h.next, HNode.obj tfields)]) ++
        h.mem := by
    rw [hmem']
    rfl
  have hpre : ∀ p ∈ ((h.next + 2,
        HNode.obj [("task", .addr h.next), ("history", .addr (h.next + 1))]) ::
      (h.next + 1, HNode.arr helems) :: [(h.next, HNode.obj tfields)]),
      h.next ≤ p.1 := by
    intro p hp
    simp only [List.mem_cons, List.not_mem_nil, or_false] at hp
    rcases hp with rfl | rfl | rfl
    · show h.next ≤ h.next + 2
      omega
    · show h.next ≤ h.next + 1
      omega
    · show h.next ≤ h.next
      omega
  have hBn : h.next ≤ h'.next := by omega
  constructor
  · omega
  · exact InMemoryTaskStore.loadM_set_frame s h' taskId hsplit hpre hmem hs
      hBn ha n fuel

/-- Witness for C3-amended: overwriting the very record cell 9 returned by
the first `load` does not change what a later `load` of `"t1"` returns. -/
theorem inmemory_shallow_copy_isolation_witness :
    exHeap1.next ≤ 9 ∧
    InMemoryTaskStore.deepLoad exStore (exHeap2.set 9 (.obj [])) "t1" 6 =
      InMemoryTaskStore.deepLoad exStore exHeap2 "t1" 6 :=
  inmemory_shallow_copy_isolation exStore exHeap1 "t1" (by rfl)
    (by decide) 9 exHeap2 (by rfl) 9 (by decide) (.obj []) 6

end A2ADemo
